import Mathlib

/-!
Verification of the resume-extraction core of the cover-letter-generator
repository: the text normalizer (clean_extracted_text), the section
segmenter (extract_resume_sections), the table-extraction strategy
(method5_camelot_tables) and the extraction orchestrator (extract) from
src/extract_resume.py, shallowly embedded over lists of characters.
Strings are modelled as `List Char`; the external PDF libraries are
modelled as parameters giving each strategy's outcome (`Except` of an
exception message or a returned text).
-/

/-! ### Character classes (ASCII model of Python's `\s`, `\w`, `[A-Z]`, `[a-z]`) -/

/-- Python whitespace (`\s`, ASCII range): space, tab, newline, carriage
return, vertical tab, form feed. -/
def isPySpace (c : Char) : Bool :=
  c == ' ' || c == '\t' || c == '\n' || c == '\r' || c == '\x0b' || c == '\x0c'

/-- Python word character (`\w`, ASCII range): letter, digit or underscore. -/
def isWordC (c : Char) : Bool :=
  c.isAlpha || c.isDigit || c == '_'

/-! ### Boolean adjacency chains, used to state properties of the normalizer -/

/-- chainB R l holds when every pair of adjacent characters of l satisfies R. -/
def chainB (R : Char → Char → Bool) : List Char → Bool
  | [] => true
  | [_] => true
  | a :: b :: rest => R a b && chainB R (b :: rest)

/-- noTwoSpR forbids two adjacent space characters. -/
def noTwoSpR (a b : Char) : Bool := !(a == ' ' && b == ' ')

/-- pairR forbids a word character immediately followed by an uppercase letter
(the pattern rewritten by the normalizer's second step). -/
def pairR (a b : Char) : Bool := !(isWordC a && b.isUpper)

/-- pairFreeB l: no word character of l is immediately followed by an
uppercase letter. -/
def pairFreeB (l : List Char) : Bool := chainB pairR l

/-- headOk l: l does not start with whitespace. -/
def headOk : List Char → Bool
  | [] => true
  | c :: _ => !isPySpace c

/-- lastOkB l: l does not end with whitespace. -/
def lastOkB (l : List Char) : Bool :=
  match l.getLast? with
  | none => true
  | some c => !isPySpace c

/-! ### The text normalizer, `clean_extracted_text` (src/extract_resume.py:157-171)

Step 1, `re.sub(r'\s+', ' ', text)`: each maximal whitespace run becomes a
single space. Steps 2 and 3, `re.sub(r'(\w)([A-Z])', r'\1 \2', text)` and
`re.sub(r'([a-z])([A-Z])', r'\1 \2', text)`: a space is inserted inside each
matched pair, with re.sub's non-overlapping left-to-right scan (a match
consumes both characters). Step 4, `re.sub(r'\n\s*\n', '\n\n', text)`:
inside each whitespace run holding at least two newlines, the segment from
the first to the last newline collapses to exactly two newlines. Step 5,
`.strip()`: leading and trailing whitespace is removed. -/

/-- Merge a whitespace character into an already collapsed remainder: if
the remainder already starts with the collapsed space of the same run,
nothing is added; otherwise a single space is emitted. -/
def spacePrepend (r : List Char) : List Char :=
  if r.head? = some ' ' then r else ' ' :: r

/-- Step 1 of the normalizer: collapse every maximal whitespace run to one
space (structural form, folding from the right). -/
def collapseWs : List Char → List Char
  | [] => []
  | c :: rest =>
    if isPySpace c then spacePrepend (collapseWs rest)
    else c :: collapseWs rest

/-- Non-overlapping left-to-right rewrite of `p`-matched adjacent pairs,
inserting a space between the two characters of each match; a match
consumes both characters, as re.sub does. Steps 2 and 3 of the normalizer
are instances. -/
def subPair (p : Char → Char → Bool) : List Char → List Char
  | [] => []
  | [c] => [c]
  | c :: d :: rest =>
    if p c d then c :: ' ' :: d :: subPair p rest
    else c :: subPair p (d :: rest)

/-- Step 2's matched pair: word character then uppercase letter. -/
def wordUpper (c d : Char) : Bool := isWordC c && d.isUpper

/-- Step 3's matched pair: lowercase letter then uppercase letter. -/
def lowerUpper (c d : Char) : Bool := c.isLower && d.isUpper

/-- One whitespace run under step 4 (`re.sub(r'\n\s*\n', '\n\n')`): if the
run holds at least two newlines, the segment from its first newline through
its last newline becomes exactly two newlines; otherwise the run is kept. -/
def transformRun (w : List Char) : List Char :=
  if 2 ≤ (w.filter (fun c => c == '\n')).length then
    w.takeWhile (fun c => !(c == '\n'))
      ++ '\n' :: '\n' :: (w.reverse.takeWhile (fun c => !(c == '\n'))).reverse
  else w

/-- Helper for step 4: splits the input into its maximal leading whitespace
run and the already-rewritten remainder. -/
def subNLaux : List Char → List Char × List Char
  | [] => ([], [])
  | c :: rest =>
    if isPySpace c then
      ((c :: (subNLaux rest).1), (subNLaux rest).2)
    else
      ([], c :: (transformRun (subNLaux rest).1 ++ (subNLaux rest).2))

/-- Step 4 of the normalizer: apply transformRun to every maximal
whitespace run. -/
def subNL (l : List Char) : List Char :=
  transformRun (subNLaux l).1 ++ (subNLaux l).2

/-- Removal of a trailing whitespace run (right half of Python `.strip()`). -/
def dropTrailWs : List Char → List Char
  | [] => []
  | c :: rest =>
    match dropTrailWs rest with
    | [] => if isPySpace c then [] else [c]
    | d :: ds => c :: d :: ds

/-- Python `str.strip()`: drop leading and trailing whitespace. -/
def pstrip (l : List Char) : List Char :=
  dropTrailWs (l.dropWhile isPySpace)

/-- The text normalizer clean_extracted_text (src/extract_resume.py:157-171):
collapse whitespace, insert spaces at word-uppercase and lowercase-uppercase
boundaries, collapse blank-line runs, then strip. -/
def clean_extracted_text (text : List Char) : List Char :=
  pstrip (subNL (subPair lowerUpper (subPair wordUpper (collapseWs text))))


/-! ### The section segmenter, `extract_resume_sections` (src/extract_resume.py:173-219)

The input is split on newlines; each line is stripped; blank lines are
skipped. A line whose lowercased text contains a keyword of one of the five
patterns (tested in insertion order contact, education, experience, skills,
summary) switches the current section to that label and resets its line
list to empty; any other line is appended to the current section's list.
The sections mapping is a Python dict: insertion-ordered, assignment to an
existing key keeps its position. -/

/-- Lines of the segmenter are character lists. -/
abbrev Line := List Char

/-- The insertion-ordered sections mapping (Python dict model): a key-value
list with distinct keys, where setting an existing key keeps its position
and setting a fresh key appends it. -/
abbrev Sections := List (String × List Line)

/-- leadMatch needle hay: needle is a leading run of hay. -/
def leadMatch : List Char → List Char → Bool
  | [], _ => true
  | _ :: _, [] => false
  | a :: as, b :: bs => a == b && leadMatch as bs

/-- occursIn needle hay: needle occurs contiguously somewhere in hay
(the `re.search` of a plain keyword). -/
def occursIn (needle : List Char) : List Char → Bool
  | [] => leadMatch needle []
  | c :: rest => leadMatch needle (c :: rest) || occursIn needle rest

/-- Python `str.split('\n')`: the newline-separated pieces, in order; the
empty input yields one empty piece. -/
def splitNl : List Char → List Line
  | [] => [[]]
  | c :: rest =>
    if c = '\n' then [] :: splitNl rest
    else
      match splitNl rest with
      | [] => [[c]]
      | h :: t => (c :: h) :: t

/-- The section_patterns table of extract_resume_sections
(src/extract_resume.py:180-186), in its Python-dict insertion order; each
alternation regex is listed as its keywords. -/
def sectionPatterns : List (String × List Line) :=
  [("contact", [("contact").data, ("phone").data, ("email").data, ("address").data]),
   ("education", [("education").data, ("degree").data, ("university").data, ("college").data]),
   ("experience", [("experience").data, ("work").data, ("employment").data, ("career").data]),
   ("skills", [("skills").data, ("technical").data, ("competencies").data]),
   ("summary", [("summary").data, ("objective").data, ("overview").data, ("profile").data])]

/-- First section label whose pattern matches the lowercased line
(`re.search(pattern, line.lower())` over the patterns in order). -/
def findSection (l : Line) : Option String :=
  (sectionPatterns.find? (fun p => p.2.any (fun kw => occursIn kw (l.map Char.toLower)))).map
    (fun p => p.1)

/-- Python dict assignment d[k] = v: replace in place if the key exists,
append otherwise. -/
def dictSet (d : Sections) (k : String) (v : List Line) : Sections :=
  match d with
  | [] => [(k, v)]
  | (k', v') :: rest => if k' = k then (k, v) :: rest else (k', v') :: dictSet rest k v

/-- The segmenter's ensure-key-then-append on the current section
(src/extract_resume.py:214-217). -/
def dictAppend (d : Sections) (k : String) (x : Line) : Sections :=
  match d with
  | [] => [(k, [x])]
  | (k', v) :: rest => if k' = k then (k', v ++ [x]) :: rest else (k', v) :: dictAppend rest k x

/-- Python dict lookup d.get(k). -/
def dictGet (d : Sections) (k : String) : Option (List Line) :=
  match d with
  | [] => none
  | (k', v) :: rest => if k' = k then some v else dictGet rest k

/-- One iteration of the segmenter's line loop (src/extract_resume.py:200-217)
on the state (current_section, sections). -/
def segStep (st : String × Sections) (line : Line) : String × Sections :=
  if pstrip line = [] then st
  else
    match findSection (pstrip line) with
    | some name => (name, dictSet st.2 name [])
    | none => (st.1, dictAppend st.2 st.1 (pstrip line))

/-- The section segmenter extract_resume_sections
(src/extract_resume.py:173-219) on string input: fold the line loop over
the newline-split input, starting from current_section 'general' bound to
an empty list. -/
def extract_resume_sections (text : List Char) : Sections :=
  (List.foldl segStep ("general", [("general", [])]) (splitNl text)).2

/-- The keys of a sections mapping, in insertion order. -/
def keysOf (d : Sections) : List String := d.map (fun p => p.1)

/-- The key of the last entry of a sections mapping. -/
def lastKey (d : Sections) : Option String := d.getLast?.map (fun p => p.1)

/-- All section line lists concatenated in segmentation (insertion) order. -/
def sectionLines (d : Sections) : List Line := (d.map (fun p => p.2)).flatten

/-- The stripped non-blank lines of a line list, in order. -/
def nonBlankOf (lines : List Line) : List Line :=
  lines.filterMap (fun line => if pstrip line = [] then none else some (pstrip line))

/-- The stripped non-blank lines that are not section headers, in order. -/
def nonHeaderOf (lines : List Line) : List Line :=
  lines.filterMap (fun line =>
    if pstrip line = [] then none
    else match findSection (pstrip line) with
      | some _ => none
      | none => some (pstrip line))

/-- The section labels matched by the lines, in order, with multiplicity. -/
def headerLabels (lines : List Line) : List String :=
  lines.filterMap (fun line =>
    if pstrip line = [] then none else findSection (pstrip line))


/-! ### The extraction strategies and the orchestrator (src/extract_resume.py:95-262)

The external PDF libraries are modelled by parameters recording each
strategy's outcome on the given document: `Except e t` is a raised
exception with message e or a returned text t. -/

/-- Outcome of one strategy invocation: raised exception message, or
returned text. -/
abbrev StratRun := Except (List Char) (List Char)

/-- The outcomes of the four primary text strategies on one document, in
the order method1_pymupdf_improved, method2_pymupdf_dict,
method3_pdfplumber, method4_pdfminer. -/
structure MethodRuns where
  m1 : StratRun
  m2 : StratRun
  m3 : StratRun
  m4 : StratRun

/-- Values the orchestrator can return: a Python string, or the sections
dict produced by extract_resume_sections. -/
inductive PyVal where
  | str : List Char → PyVal
  | dict : Sections → PyVal

/-- One entry of the hybrid pass's report: the returned text on success,
or the formatted per-method error string (src/extract_resume.py:148-153). -/
def runStrategy : StratRun → List Char
  | Except.ok t => t
  | Except.error e => ("Error: ").data ++ e

/-- The hybrid diagnostic pass method7_hybrid_approach
(src/extract_resume.py:134-155): runs the four primary strategies, storing
each one's text or error string under its display name; never raises. -/
def method7_hybrid_approach (env : MethodRuns) : List (String × List Char) :=
  [("PyMuPDF Improved", runStrategy env.m1),
   ("PyMuPDF Dict", runStrategy env.m2),
   ("PDFPlumber", runStrategy env.m3),
   ("PDFMiner", runStrategy env.m4)]

/-- Python try/except Exception wrapping of a body whose evaluation either
returns a value or raises with a message. -/
def pyTry (body : Except (List Char) PyVal) (handler : List Char → Except (List Char) PyVal) :
    Except (List Char) PyVal :=
  match body with
  | Except.ok v => Except.ok v
  | Except.error e => handler e

/-- The extraction orchestrator extract (src/extract_resume.py:221-262).
Returns the resulting value (or an uncaught exception, which never occurs)
together with the hybrid diagnostic report it computed for logging. The
outer try returns the synthesized error string; the inner try returns
method3's text directly on success and otherwise falls back to method1,
whose text (always a string) is cleaned and segmented before being
returned. -/
def extract (env : MethodRuns) : Except (List Char) PyVal × List (String × List Char) :=
  (pyTry
    (pyTry
      (match env.m3 with
       | Except.ok best => Except.ok (PyVal.str best)
       | Except.error e => Except.error e)
      (fun _e =>
        match env.m1 with
        | Except.ok fb =>
            Except.ok (PyVal.dict (extract_resume_sections (clean_extracted_text fb)))
        | Except.error e => Except.error e))
    (fun e => Except.ok (PyVal.str (("Error extracting PDF: ").data ++ e))),
   method7_hybrid_approach env)

/-- Spec-side variant of the orchestrator's returned value with the hybrid
diagnostic pass skipped entirely, stated from the spec's words for the
frame claim: invoke the layout-preserving strategy, on success return its
output, on failure fall back to the block strategy with normalization and
segmentation, and if both fail return the synthesized error string. -/
def extractNoDiag (env : MethodRuns) : Except (List Char) PyVal :=
  pyTry
    (pyTry
      (match env.m3 with
       | Except.ok best => Except.ok (PyVal.str best)
       | Except.error e => Except.error e)
      (fun _e =>
        match env.m1 with
        | Except.ok fb =>
            Except.ok (PyVal.dict (extract_resume_sections (clean_extracted_text fb)))
        | Except.error e => Except.error e))
    (fun e => Except.ok (PyVal.str (("Error extracting PDF: ").data ++ e)))

/-- Whether an orchestrator outcome is a normally returned Python string. -/
def isStrResult : Except (List Char) PyVal → Bool
  | Except.ok (PyVal.str _) => true
  | _ => false

/-- Serialization of the detected tables by method5_camelot_tables
(src/extract_resume.py:102-105): each table becomes a numbered block
followed by a blank line. -/
def formatTables (ts : List (List Char)) : List Char :=
  (ts.enum.map (fun p =>
    ("Table ").data ++ (Nat.repr (p.1 + 1)).data ++ (":\n").data ++ p.2 ++ ("\n\n").data)).flatten

/-- The table-extraction strategy method5_camelot_tables
(src/extract_resume.py:95-109): the detector either raises (modelled
`Except.error e`), which is caught and formatted, or yields the list of
serialized tables, which are concatenated with numbered headings. -/
def method5_camelot_tables (tables : Except (List Char) (List (List Char))) : List Char :=
  match tables with
  | Except.error e => ("Error extracting tables: ").data ++ e
  | Except.ok ts => formatTables ts


/-! ### Toolkit: adjacency chains -/

/-- Dropping the first character preserves a chain. -/
theorem chainB_tail {R : Char → Char → Bool} {c : Char} {l : List Char}
    (h : chainB R (c :: l) = true) : chainB R l = true := by
  cases l with
  | nil => rfl
  | cons b rest => simp only [chainB, Bool.and_eq_true] at h; exact h.2

/-- Characterization of a chain on a cons cell. -/
theorem chainB_cons_iff {R : Char → Char → Bool} {a : Char} {l : List Char} :
    chainB R (a :: l) = true ↔
      (∀ b, l.head? = some b → R a b = true) ∧ chainB R l = true := by
  cases l with
  | nil => simp [chainB]
  | cons b rest =>
    simp only [chainB, Bool.and_eq_true, List.head?_cons]
    constructor
    · rintro ⟨h1, h2⟩
      exact ⟨fun x hx => by cases hx; exact h1, h2⟩
    · rintro ⟨h1, h2⟩
      exact ⟨h1 b rfl, h2⟩

/-- A chain for a stronger relation is a chain for a weaker one. -/
theorem chainB_imp {R R' : Char → Char → Bool}
    (h : ∀ a b, R a b = true → R' a b = true) :
    ∀ l, chainB R l = true → chainB R' l = true
  | [], _ => rfl
  | [_], _ => rfl
  | a :: b :: rest, hc => by
    simp only [chainB, Bool.and_eq_true] at hc ⊢
    exact ⟨h _ _ hc.1, chainB_imp h (b :: rest) hc.2⟩

/-! ### Toolkit: whitespace collapsing (step 1 of the normalizer) -/

/-- Characters of spacePrepend r come from r, or are the space. -/
theorem mem_spacePrepend {x : Char} {r : List Char} (h : x ∈ spacePrepend r) :
    x = ' ' ∨ x ∈ r := by
  unfold spacePrepend at h
  split at h
  · exact Or.inr h
  · rcases List.mem_cons.mp h with h | h
    · exact Or.inl h
    · exact Or.inr h

/-- Every whitespace character of a collapsed text is the plain space. -/
theorem collapseWs_allWs : ∀ l, ∀ c ∈ collapseWs l, isPySpace c = true → c = ' '
  | [], c, hc, _ => by simp [collapseWs] at hc
  | a :: rest, c, hc, hw => by
    simp only [collapseWs] at hc
    split at hc
    · rcases mem_spacePrepend hc with h | h
      · exact h
      · exact collapseWs_allWs rest c h hw
    · rcases List.mem_cons.mp hc with h | h
      · subst h; rename_i ha; simp [hw] at ha
      · exact collapseWs_allWs rest c h hw

/-- The first character of a collapsed text is the space, or the first
character of the input. -/
theorem collapseWs_head : ∀ l {a : Char}, (collapseWs l).head? = some a →
    a = ' ' ∨ l.head? = some a
  | [], a, h => by simp [collapseWs] at h
  | c :: rest, a, h => by
    simp only [collapseWs] at h
    split at h
    · unfold spacePrepend at h
      split at h
      · rename_i hsp
        rw [h] at hsp
        exact Or.inl (Option.some.inj hsp)
      · simp only [List.head?_cons] at h
        exact Or.inl (Option.some.inj h).symm
    · simp only [List.head?_cons] at h
      exact Or.inr (by simp [List.head?_cons, h])

/-- A collapsed text has no two adjacent whitespace-derived spaces. -/
theorem collapseWs_noTwoSp : ∀ l, chainB noTwoSpR (collapseWs l) = true
  | [] => rfl
  | c :: rest => by
    have ih := collapseWs_noTwoSp rest
    simp only [collapseWs]
    split
    · unfold spacePrepend
      split
      · exact ih
      · rename_i hns
        rw [chainB_cons_iff]
        refine ⟨fun b hb => ?_, ih⟩
        have hbne : ¬ b = ' ' := fun he => hns (by rw [hb, he])
        simp [noTwoSpR, hbne]
    · rename_i hc
      rw [chainB_cons_iff]
      refine ⟨fun b hb => ?_, ih⟩
      have hcne : ¬ c = ' ' := fun he => by subst he; exact hc rfl
      simp [noTwoSpR, hcne]

/-- Collapsing preserves any chain relation that accepts the space on
either side. -/
theorem collapseWs_chain {R : Char → Char → Bool}
    (h1 : ∀ x, R x ' ' = true) (h2 : ∀ x, R ' ' x = true) :
    ∀ l, chainB R l = true → chainB R (collapseWs l) = true
  | [], _ => rfl
  | c :: rest, hc => by
    have ih := collapseWs_chain h1 h2 rest (chainB_tail hc)
    simp only [collapseWs]
    split
    · unfold spacePrepend
      split
      · exact ih
      · rw [chainB_cons_iff]
        exact ⟨fun b _ => h2 b, ih⟩
    · rw [chainB_cons_iff]
      refine ⟨fun b hb => ?_, ih⟩
      rcases collapseWs_head rest hb with h | h
      · subst h; exact h1 c
      · exact (chainB_cons_iff.mp hc).1 b h

/-- Newlines never survive collapsing. -/
theorem collapseWs_no_nl (l : List Char) : '\n' ∉ collapseWs l := by
  intro h
  have := collapseWs_allWs l '\n' h (by decide)
  simp at this

/-- Collapsing fixes a text whose whitespace is lone single spaces. -/
theorem collapseWs_fix : ∀ l, (∀ c ∈ l, isPySpace c = true → c = ' ') →
    chainB noTwoSpR l = true → collapseWs l = l
  | [], _, _ => rfl
  | c :: rest, hall, hch => by
    have ih := collapseWs_fix rest (fun x hx => hall x (List.mem_cons_of_mem c hx))
      (chainB_tail hch)
    simp only [collapseWs]
    split
    · rename_i hc
      have hcsp : c = ' ' := hall c (List.mem_cons_self c rest) hc
      rw [ih]
      unfold spacePrepend
      split
      · rename_i hh
        rcases rest with _ | ⟨d, ds⟩
        · simp at hh
        · simp only [List.head?_cons] at hh
          have hd : d = ' ' := Option.some.inj hh
          have := (chainB_cons_iff.mp hch).1 d rfl
          rw [hcsp, hd] at this
          simp [noTwoSpR] at this
      · rw [hcsp]
    · rw [ih]

/-! ### Toolkit: pair rewriting (steps 2 and 3 of the normalizer) -/

/-- Pair rewriting never changes the first character. -/
theorem subPair_head (p : Char → Char → Bool) :
    ∀ l, (subPair p l).head? = l.head?
  | [] => rfl
  | [_] => rfl
  | _ :: _ :: _ => by
    simp only [subPair]
    split <;> rfl

/-- Characters of a rewritten text come from the input, or are the space. -/
theorem mem_subPair (p : Char → Char → Bool) :
    ∀ l x, x ∈ subPair p l → x ∈ l ∨ x = ' '
  | [], x, h => by simp [subPair] at h
  | [c], x, h => by
    simp only [subPair] at h
    exact Or.inl h
  | c :: d :: rest, x, h => by
    simp only [subPair] at h
    split at h
    · rcases List.mem_cons.mp h with h | h
      · exact Or.inl (by simp [h])
      · rcases List.mem_cons.mp h with h | h
        · exact Or.inr h
        · rcases List.mem_cons.mp h with h | h
          · exact Or.inl (by simp [h])
          · rcases mem_subPair p rest x h with h | h
            · exact Or.inl (by simp [h])
            · exact Or.inr h
    · rcases List.mem_cons.mp h with h | h
      · exact Or.inl (by simp [h])
      · rcases mem_subPair p (d :: rest) x h with h | h
        · exact Or.inl (List.mem_cons_of_mem c h)
        · exact Or.inr h

/-- Pair rewriting preserves any chain relation that accepts the inserted
space against the two characters of a match. -/
theorem subPair_chain {R : Char → Char → Bool} (p : Char → Char → Bool)
    (hp : ∀ c d, p c d = true → R c ' ' = true ∧ R ' ' d = true) :
    ∀ l, chainB R l = true → chainB R (subPair p l) = true
  | [], _ => rfl
  | [_], _ => rfl
  | c :: d :: rest, hc => by
    have hcd : R c d = true := by
      simp only [chainB, Bool.and_eq_true] at hc; exact hc.1
    have htail : chainB R (d :: rest) = true := chainB_tail hc
    simp only [subPair]
    split
    · rename_i hpcd
      have hrec := subPair_chain p hp rest (chainB_tail htail)
      rw [chainB_cons_iff]
      refine ⟨fun b hb => ?_, ?_⟩
      · simp only [List.head?_cons] at hb
        cases hb; exact (hp c d hpcd).1
      · rw [chainB_cons_iff]
        refine ⟨fun b hb => ?_, ?_⟩
        · simp only [List.head?_cons] at hb
          cases hb; exact (hp c d hpcd).2
        · rw [chainB_cons_iff]
          refine ⟨fun b hb => ?_, hrec⟩
          rw [subPair_head p rest] at hb
          exact (chainB_cons_iff.mp htail).1 b hb
    · have hrec := subPair_chain p hp (d :: rest) htail
      rw [chainB_cons_iff]
      refine ⟨fun b hb => ?_, hrec⟩
      rw [subPair_head p (d :: rest)] at hb
      simp only [List.head?_cons] at hb
      cases hb; exact hcd

/-- Pair rewriting fixes a text in which no pair matches. -/
theorem subPair_id (p : Char → Char → Bool) :
    ∀ l, chainB (fun a b => !(p a b)) l = true → subPair p l = l
  | [], _ => rfl
  | [_], _ => rfl
  | c :: d :: rest, hc => by
    have h1 : p c d = false := by
      simp only [chainB, Bool.and_eq_true] at hc
      simpa using hc.1
    simp only [subPair, h1]
    simp only [Bool.false_eq_true, if_false]
    rw [subPair_id p (d :: rest) (chainB_tail hc)]

/-! ### Toolkit: stripping -/

/-- Dropping a prefix by a predicate preserves a chain. -/
theorem chainB_dropWhile {R : Char → Char → Bool} (q : Char → Bool) :
    ∀ l, chainB R l = true → chainB R (l.dropWhile q) = true
  | [], _ => rfl
  | c :: rest, hc => by
    by_cases h : q c
    · rw [List.dropWhile_cons_of_pos h]
      exact chainB_dropWhile q rest (chainB_tail hc)
    · rw [List.dropWhile_cons_of_neg h]
      exact hc

/-- Characters survive dropWhile only from the input. -/
theorem mem_dropWhile {x : Char} (q : Char → Bool) :
    ∀ l : List Char, x ∈ l.dropWhile q → x ∈ l
  | [], h => by simp at h
  | c :: rest, h => by
    by_cases hq : q c
    · rw [List.dropWhile_cons_of_pos hq] at h
      exact List.mem_cons_of_mem c (mem_dropWhile q rest h)
    · rwa [List.dropWhile_cons_of_neg hq] at h

/-- The first survivor of dropWhile falsifies the predicate. -/
theorem dropWhile_head_not (q : Char → Bool) :
    ∀ (l : List Char) (a : Char), (l.dropWhile q).head? = some a → q a = false
  | [], a, h => by simp at h
  | c :: rest, a, h => by
    by_cases hq : q c
    · rw [List.dropWhile_cons_of_pos hq] at h
      exact dropWhile_head_not q rest a h
    · rw [List.dropWhile_cons_of_neg hq] at h
      simp only [List.head?_cons] at h
      cases h
      simpa using hq

/-- dropWhile fixes a list whose head falsifies the predicate. -/
theorem dropWhile_of_headOk {l : List Char} (h : headOk l = true) :
    l.dropWhile isPySpace = l := by
  cases l with
  | nil => rfl
  | cons c rest =>
    simp only [headOk, Bool.not_eq_true'] at h
    exact List.dropWhile_cons_of_neg (by simp [h])

/-- Trailing-strip never changes the first character of a nonempty result. -/
theorem dropTrailWs_head : ∀ l {a : Char}, (dropTrailWs l).head? = some a →
    l.head? = some a
  | [], a, h => by simp [dropTrailWs] at h
  | c :: rest, a, h => by
    cases hr : dropTrailWs rest with
    | nil =>
      simp only [dropTrailWs, hr] at h
      split at h
      · simp at h
      · simp only [List.head?_cons] at h
        cases h
        rfl
    | cons d ds =>
      simp only [dropTrailWs, hr] at h
      simp only [List.head?_cons] at h
      cases h
      rfl

/-- The last character after a trailing strip is not whitespace. -/
theorem dropTrailWs_getLast : ∀ l {a : Char}, (dropTrailWs l).getLast? = some a →
    isPySpace a = false
  | [], a, h => by simp [dropTrailWs] at h
  | c :: rest, a, h => by
    cases hr : dropTrailWs rest with
    | nil =>
      simp only [dropTrailWs, hr] at h
      split at h
      · simp at h
      · rename_i hc
        simp only [List.getLast?_singleton] at h
        cases h
        simpa using hc
    | cons d ds =>
      simp only [dropTrailWs, hr] at h
      rw [List.getLast?_cons_cons] at h
      exact dropTrailWs_getLast rest (by rw [hr]; exact h)

/-- Characters survive the trailing strip only from the input. -/
theorem mem_dropTrailWs {x : Char} : ∀ l, x ∈ dropTrailWs l → x ∈ l
  | [], h => by simp [dropTrailWs] at h
  | c :: rest, h => by
    cases hr : dropTrailWs rest with
    | nil =>
      simp only [dropTrailWs, hr] at h
      split at h
      · simp at h
      · simp only [List.mem_singleton] at h
        simp [h]
    | cons d ds =>
      simp only [dropTrailWs, hr] at h
      rcases List.mem_cons.mp h with h | h
      · simp [h]
      · exact List.mem_cons_of_mem c (mem_dropTrailWs rest (by rw [hr]; exact h))

/-- The trailing strip preserves any chain. -/
theorem chainB_dropTrailWs {R : Char → Char → Bool} :
    ∀ l, chainB R l = true → chainB R (dropTrailWs l) = true
  | [], _ => rfl
  | c :: rest, hc => by
    cases hr : dropTrailWs rest with
    | nil =>
      simp only [dropTrailWs, hr]
      split
      · rfl
      · rfl
    | cons d ds =>
      simp only [dropTrailWs, hr]
      have hrec := chainB_dropTrailWs rest (chainB_tail hc)
      rw [hr] at hrec
      have hd : rest.head? = some d := dropTrailWs_head rest (by rw [hr]; rfl)
      have hRcd : R c d = true := (chainB_cons_iff.mp hc).1 d hd
      simp only [chainB, Bool.and_eq_true]
      refine ⟨hRcd, ?_⟩
      simpa [chainB] using hrec

/-- Unfolding of the trailing strip on a cons cell. -/
theorem dropTrailWs_cons (c : Char) (rest : List Char) :
    dropTrailWs (c :: rest)
      = match dropTrailWs rest with
        | [] => if isPySpace c then [] else [c]
        | d :: ds => c :: d :: ds := rfl

/-- The trailing strip fixes a text not ending in whitespace. -/
theorem dropTrailWs_fix : ∀ l, lastOkB l = true → dropTrailWs l = l
  | [], _ => rfl
  | c :: rest, h => by
    cases rest with
    | nil =>
      simp only [lastOkB, List.getLast?_singleton, Bool.not_eq_true'] at h
      simp [dropTrailWs, h]
    | cons d ds =>
      have h' : lastOkB (d :: ds) = true := by
        simpa only [lastOkB, List.getLast?_cons_cons] using h
      have hrec := dropTrailWs_fix (d :: ds) h'
      rw [dropTrailWs_cons, hrec]

/-- A stripped text does not start with whitespace. -/
theorem pstrip_headOk (l : List Char) : headOk (pstrip l) = true := by
  cases hp : pstrip l with
  | nil => rfl
  | cons a t =>
    have ha : (dropTrailWs (l.dropWhile isPySpace)).head? = some a := by
      rw [← pstrip, hp]; rfl
    have hb := dropTrailWs_head (l.dropWhile isPySpace) ha
    have hw := dropWhile_head_not isPySpace l a hb
    simp [headOk, hw]

/-- A stripped text does not end in whitespace. -/
theorem pstrip_lastOk (l : List Char) : lastOkB (pstrip l) = true := by
  unfold lastOkB
  cases hg : (pstrip l).getLast? with
  | none => rfl
  | some a =>
    have := dropTrailWs_getLast (l.dropWhile isPySpace) (by rw [← pstrip]; exact hg)
    simp [this]

/-- Stripping fixes a text with whitespace on neither end. -/
theorem pstrip_fix {l : List Char} (h1 : headOk l = true) (h2 : lastOkB l = true) :
    pstrip l = l := by
  unfold pstrip
  rw [dropWhile_of_headOk h1]
  exact dropTrailWs_fix l h2

/-- Stripping is idempotent. -/
theorem pstrip_idem (l : List Char) : pstrip (pstrip l) = pstrip l :=
  pstrip_fix (pstrip_headOk l) (pstrip_lastOk l)

/-- Stripping preserves any chain. -/
theorem chainB_pstrip {R : Char → Char → Bool} {l : List Char}
    (h : chainB R l = true) : chainB R (pstrip l) = true :=
  chainB_dropTrailWs _ (chainB_dropWhile isPySpace l h)

/-- Characters survive stripping only from the input. -/
theorem mem_pstrip {x : Char} {l : List Char} (h : x ∈ pstrip l) : x ∈ l :=
  mem_dropWhile isPySpace l (mem_dropTrailWs _ h)

/-! ### Toolkit: the blank-line collapse (step 4 of the normalizer) -/

/-- The run transformation fixes a newline-free run. -/
theorem transformRun_no_nl {w : List Char} (h : '\n' ∉ w) : transformRun w = w := by
  unfold transformRun
  have hf : w.filter (fun c => c == '\n') = [] := by
    rw [List.filter_eq_nil_iff]
    intro a ha
    simp only [beq_iff_eq]
    intro he
    exact h (he ▸ ha)
  rw [hf]
  simp

/-- On newline-free input, the run splitter reassembles the input and its
leading run stays newline-free. -/
theorem subNLaux_no_nl : ∀ l : List Char, '\n' ∉ l →
    (subNLaux l).1 ++ (subNLaux l).2 = l ∧ '\n' ∉ (subNLaux l).1
  | [], _ => by simp [subNLaux]
  | c :: rest, h => by
    have hc : ¬ c = '\n' := fun he => h (by simp [he])
    have hrest : '\n' ∉ rest := fun hm => h (List.mem_cons_of_mem c hm)
    have ih := subNLaux_no_nl rest hrest
    simp only [subNLaux]
    split
    · constructor
      · simpa using ih.1
      · intro hm
        rcases List.mem_cons.mp hm with hm | hm
        · exact hc hm.symm
        · exact ih.2 hm
    · refine ⟨?_, by simp⟩
      rw [transformRun_no_nl ih.2, ih.1]
      simp

/-- Step 4 fixes a newline-free text. -/
theorem subNL_no_nl {l : List Char} (h : '\n' ∉ l) : subNL l = l := by
  unfold subNL
  have := subNLaux_no_nl l h
  rw [transformRun_no_nl this.2]
  exact this.1

/-! ### Toolkit: character-class facts -/

/-- A word character is not the space. -/
theorem isWordC_ne_space {c : Char} (h : isWordC c = true) : ¬ c = ' ' := by
  intro he; subst he; exact absurd h (by decide)

/-- A whitespace character is not a word character. -/
theorem ws_not_word {c : Char} (h : isPySpace c = true) : isWordC c = false := by
  simp only [isPySpace, Bool.or_eq_true, beq_iff_eq] at h
  rcases h with ((((h | h) | h) | h) | h) | h <;> subst h <;> decide

/-- A word character is not whitespace. -/
theorem isWordC_not_ws {c : Char} (h : isWordC c = true) : isPySpace c = false := by
  cases hw : isPySpace c
  · rfl
  · rw [ws_not_word hw] at h
    exact absurd h (by decide)

/-- An uppercase letter is a word character. -/
theorem isUpper_word {c : Char} (h : c.isUpper = true) : isWordC c = true := by
  simp [isWordC, Char.isAlpha, h]

/-- A lowercase letter is a word character. -/
theorem isLower_word {c : Char} (h : c.isLower = true) : isWordC c = true := by
  simp [isWordC, Char.isAlpha, h]

/-- An uppercase letter is not the space. -/
theorem isUpper_ne_space {c : Char} (h : c.isUpper = true) : ¬ c = ' ' :=
  isWordC_ne_space (isUpper_word h)

/-- A lowercase letter is not the space. -/
theorem isLower_ne_space {c : Char} (h : c.isLower = true) : ¬ c = ' ' :=
  isWordC_ne_space (isLower_word h)

/-! ### Structure of the normalizer's output -/

/-- Newlines never survive pair rewriting. -/
theorem subPair_no_nl (p : Char → Char → Bool) {l : List Char} (h : '\n' ∉ l) :
    '\n' ∉ subPair p l := by
  intro hm
  rcases mem_subPair p l '\n' hm with hm | hm
  · exact h hm
  · exact absurd hm (by decide)

/-- Word-uppercase matches keep spaces isolated. -/
theorem wordUpper_sp (c d : Char) (h : wordUpper c d = true) :
    noTwoSpR c ' ' = true ∧ noTwoSpR ' ' d = true := by
  simp only [wordUpper, Bool.and_eq_true] at h
  constructor
  · simp [noTwoSpR, isWordC_ne_space h.1]
  · simp [noTwoSpR, isUpper_ne_space h.2]

/-- Lowercase-uppercase matches keep spaces isolated. -/
theorem lowerUpper_sp (c d : Char) (h : lowerUpper c d = true) :
    noTwoSpR c ' ' = true ∧ noTwoSpR ' ' d = true := by
  simp only [lowerUpper, Bool.and_eq_true] at h
  constructor
  · simp [noTwoSpR, isLower_ne_space h.1]
  · simp [noTwoSpR, isUpper_ne_space h.2]

/-- The normalizer's output never holds two adjacent spaces. -/
theorem clean_chain_noTwoSp (t : List Char) :
    chainB noTwoSpR (clean_extracted_text t) = true := by
  unfold clean_extracted_text
  have hA := collapseWs_noTwoSp t
  have hB := subPair_chain wordUpper wordUpper_sp (collapseWs t) hA
  have hC := subPair_chain lowerUpper lowerUpper_sp _ hB
  have hnl : '\n' ∉ subPair lowerUpper (subPair wordUpper (collapseWs t)) :=
    subPair_no_nl _ (subPair_no_nl _ (collapseWs_no_nl t))
  rw [subNL_no_nl hnl]
  exact chainB_pstrip hC

/-! ### Idempotence analysis of the normalizer -/

/-- On a pair-free text, step 2 is the identity. -/
theorem subPair_wordUpper_id {l : List Char} (h : chainB pairR l = true) :
    subPair wordUpper l = l :=
  subPair_id wordUpper l h

/-- On a pair-free text, step 3 is the identity. -/
theorem subPair_lowerUpper_id {l : List Char} (h : chainB pairR l = true) :
    subPair lowerUpper l = l := by
  refine subPair_id lowerUpper l (chainB_imp ?_ l h)
  intro a b hab
  cases hl : lowerUpper a b
  · rfl
  · exfalso
    simp only [lowerUpper, Bool.and_eq_true] at hl
    simp [pairR, isLower_word hl.1, hl.2] at hab

/-- Collapsing a pair-free text yields a pair-free text. -/
theorem collapseWs_pairFree {t : List Char} (h : pairFreeB t = true) :
    chainB pairR (collapseWs t) = true := by
  have hu : Char.isUpper ' ' = false := by decide
  have hw : isWordC ' ' = false := by decide
  exact collapseWs_chain (fun x => by simp [pairR, hu]) (fun x => by simp [pairR, hw]) t h

/-- On a pair-free input, the normalizer is collapse followed by strip. -/
theorem clean_eq_of_pairFree {t : List Char} (h : pairFreeB t = true) :
    clean_extracted_text t = pstrip (collapseWs t) := by
  have hA := collapseWs_pairFree h
  unfold clean_extracted_text
  rw [subPair_wordUpper_id hA, subPair_lowerUpper_id hA,
    subNL_no_nl (collapseWs_no_nl t)]

/-- The normalizer fixes a pair-free text whose whitespace is lone inner
single spaces. -/
theorem clean_fix {l : List Char}
    (hallWs : ∀ c ∈ l, isPySpace c = true → c = ' ')
    (hsp : chainB noTwoSpR l = true)
    (hpf : chainB pairR l = true)
    (hh : headOk l = true) (hl : lastOkB l = true) :
    clean_extracted_text l = l := by
  have hnl : '\n' ∉ l := by
    intro hm
    have := hallWs '\n' hm (by decide)
    exact absurd this (by decide)
  unfold clean_extracted_text
  rw [collapseWs_fix l hallWs hsp, subPair_wordUpper_id hpf, subPair_lowerUpper_id hpf,
    subNL_no_nl hnl, pstrip_fix hh hl]

/-! ### Claim C1: idempotence of the text normalizer -/

/-- C1 counterexample: the normalizer is not idempotent. On "ABC" one
application yields "A BC" (re.sub consumed "AB" and resumed after it) and a
second application splits the remaining "BC" into "B C". -/
theorem clean_not_idempotent_on_ABC :
    clean_extracted_text (clean_extracted_text (("ABC").data))
      ≠ clean_extracted_text (("ABC").data) := by decide

/-- C1 (amended): the normalizer is idempotent on every input in which no
word character is immediately followed by an uppercase letter; on such an
input both applications reduce to whitespace collapsing plus stripping,
which is a fixed point of the normalizer. -/
theorem clean_idempotent_of_pairFree (t : List Char) (h : pairFreeB t = true) :
    clean_extracted_text (clean_extracted_text t) = clean_extracted_text t := by
  have hA := collapseWs_pairFree h
  rw [clean_eq_of_pairFree h]
  refine clean_fix ?_ ?_ ?_ ?_ ?_
  · intro c hc hw
    exact collapseWs_allWs t c (mem_pstrip hc) hw
  · exact chainB_pstrip (collapseWs_noTwoSp t)
  · exact chainB_pstrip hA
  · exact pstrip_headOk _
  · exact pstrip_lastOk _

/-- C1 witness: the amended idempotence applied to the concrete pair-free
input "john  doe\ncontact me". -/
theorem clean_idempotent_witness :
    pairFreeB (("john  doe\ncontact me").data) = true
    ∧ clean_extracted_text (clean_extracted_text (("john  doe\ncontact me").data))
        = clean_extracted_text (("john  doe\ncontact me").data) :=
  ⟨by decide, clean_idempotent_of_pairFree (("john  doe\ncontact me").data) (by decide)⟩

/-! ### Claim C5: the normalizer's output has no double spaces and is trimmed -/

/-- C5: for every input, the normalized text holds no two consecutive space
characters and neither starts nor ends with whitespace. -/
theorem clean_no_double_space_trimmed (t : List Char) :
    chainB noTwoSpR (clean_extracted_text t) = true
    ∧ headOk (clean_extracted_text t) = true
    ∧ lastOkB (clean_extracted_text t) = true := by
  refine ⟨clean_chain_noTwoSp t, ?_, ?_⟩
  · unfold clean_extracted_text
    exact pstrip_headOk _
  · unfold clean_extracted_text
    exact pstrip_lastOk _

/-! ### Toolkit: newline splitting -/

/-- Splitting never yields an empty list of lines. -/
theorem splitNl_ne_nil : ∀ l : List Char, splitNl l ≠ []
  | [] => by simp [splitNl]
  | c :: rest => by
    by_cases hc : c = '\n'
    · simp [splitNl, hc]
    · cases hs : splitNl rest with
      | nil => simp [splitNl, hc, hs]
      | cons h t => simp [splitNl, hc, hs]

/-- Unfolding of splitting on a cons cell. -/
theorem splitNl_cons (c : Char) (rest : List Char) :
    splitNl (c :: rest)
      = if c = '\n' then [] :: splitNl rest
        else match splitNl rest with
          | [] => [[c]]
          | h :: t => (c :: h) :: t := rfl

/-- Splitting distributes over an explicit newline. -/
theorem splitNl_append (x y : List Char) :
    splitNl (x ++ '\n' :: y) = splitNl x ++ splitNl y := by
  induction x with
  | nil => simp [splitNl]
  | cons c x' ih =>
    rw [List.cons_append, splitNl_cons, splitNl_cons c x']
    by_cases hc : c = '\n'
    · rw [if_pos hc, if_pos hc, ih]
      simp
    · rw [if_neg hc, if_neg hc, ih]
      cases hs : splitNl x' with
      | nil => exact absurd hs (splitNl_ne_nil x')
      | cons h t => simp [hs]

/-- A newline-free text is a single line. -/
theorem splitNl_no_nl : ∀ l : List Char, '\n' ∉ l → splitNl l = [l]
  | [], _ => rfl
  | c :: rest, hnl => by
    have hc : ¬ c = '\n' := fun he => hnl (by simp [he])
    have hr : '\n' ∉ rest := fun hm => hnl (List.mem_cons_of_mem c hm)
    simp only [splitNl]
    rw [if_neg hc, splitNl_no_nl rest hr]

/-! ### Toolkit: the Python-dict model -/

/-- Unfolding of dict assignment on a cons cell. -/
theorem dictSet_cons (k' : String) (v' : List Line) (rest : Sections)
    (k : String) (v : List Line) :
    dictSet ((k', v') :: rest) k v
      = if k' = k then (k, v) :: rest else (k', v') :: dictSet rest k v := rfl

/-- Unfolding of the ensure-then-append on a cons cell. -/
theorem dictAppend_cons (k' : String) (v' : List Line) (rest : Sections)
    (k : String) (x : Line) :
    dictAppend ((k', v') :: rest) k x
      = if k' = k then (k', v' ++ [x]) :: rest else (k', v') :: dictAppend rest k x := rfl

/-- Unfolding of lookup on a cons cell. -/
theorem dictGet_cons (k' : String) (v' : List Line) (rest : Sections) (k : String) :
    dictGet ((k', v') :: rest) k
      = if k' = k then some v' else dictGet rest k := rfl

/-- Setting a fresh key appends the binding. -/
theorem dictSet_notMem (k : String) (v : List Line) :
    ∀ d : Sections, k ∉ keysOf d → dictSet d k v = d ++ [(k, v)] := by
  intro d
  induction d with
  | nil => intro _; rfl
  | cons e rest ih =>
    intro h
    obtain ⟨k', v'⟩ := e
    have hne : ¬ k' = k := fun he => h (by simp [keysOf, he])
    have hrest : k ∉ keysOf rest := fun hm => h (by simp [keysOf] at hm ⊢; exact Or.inr hm)
    rw [dictSet_cons, if_neg hne, ih hrest]
    simp

/-- Setting a key preserves the existing keys. -/
theorem mem_keys_dictSet {a : String} (k : String) (v : List Line) :
    ∀ d : Sections, a ∈ keysOf d → a ∈ keysOf (dictSet d k v) := by
  intro d
  induction d with
  | nil => intro h; simp [keysOf] at h
  | cons e rest ih =>
    intro h
    obtain ⟨k', v'⟩ := e
    simp only [keysOf, List.map_cons, List.mem_cons] at h
    by_cases he : k' = k
    · rw [dictSet_cons, if_pos he]
      simp only [keysOf, List.map_cons, List.mem_cons]
      rcases h with h | h
      · exact Or.inl (by rw [h, he])
      · exact Or.inr h
    · rw [dictSet_cons, if_neg he]
      simp only [keysOf, List.map_cons, List.mem_cons]
      rcases h with h | h
      · exact Or.inl h
      · exact Or.inr (ih h)

/-- Appending under a key preserves the existing keys. -/
theorem mem_keys_dictAppend {a : String} (k : String) (x : Line) :
    ∀ d : Sections, a ∈ keysOf d → a ∈ keysOf (dictAppend d k x) := by
  intro d
  induction d with
  | nil => intro h; simp [keysOf] at h
  | cons e rest ih =>
    intro h
    obtain ⟨k', v'⟩ := e
    simp only [keysOf, List.map_cons, List.mem_cons] at h
    by_cases he : k' = k
    · rw [dictAppend_cons, if_pos he]
      simp only [keysOf, List.map_cons, List.mem_cons]
      exact h
    · rw [dictAppend_cons, if_neg he]
      simp only [keysOf, List.map_cons, List.mem_cons]
      rcases h with h | h
      · exact Or.inl h
      · exact Or.inr (ih h)

/-- Lookup after setting a key yields the set value. -/
theorem dictGet_dictSet (k : String) (v : List Line) :
    ∀ d : Sections, dictGet (dictSet d k v) k = some v := by
  intro d
  induction d with
  | nil => simp [dictSet, dictGet]
  | cons e rest ih =>
    obtain ⟨k', v'⟩ := e
    by_cases he : k' = k
    · rw [dictSet_cons, if_pos he, dictGet_cons, if_pos rfl]
    · rw [dictSet_cons, if_neg he, dictGet_cons, if_neg he]
      exact ih

/-- A line property holding for all stored lines still holds after a reset. -/
theorem dictSet_inv {Q : Line → Prop} (k : String) :
    ∀ d : Sections, (∀ p ∈ d, ∀ y ∈ p.2, Q y) → ∀ p ∈ dictSet d k [], ∀ y ∈ p.2, Q y := by
  intro d
  induction d with
  | nil =>
    intro _ p hp y hy
    simp only [dictSet, List.mem_singleton] at hp
    subst hp
    simp at hy
  | cons e rest ih =>
    intro hall p hp y hy
    obtain ⟨k', v'⟩ := e
    by_cases he : k' = k
    · rw [dictSet_cons, if_pos he] at hp
      rcases List.mem_cons.mp hp with hp | hp
      · subst hp; simp at hy
      · exact hall p (List.mem_cons_of_mem _ hp) y hy
    · rw [dictSet_cons, if_neg he] at hp
      rcases List.mem_cons.mp hp with hp | hp
      · subst hp
        exact hall _ (List.mem_cons_self _ _) y hy
      · exact ih (fun q hq => hall q (List.mem_cons_of_mem _ hq)) p hp y hy

/-- A line property holding for all stored lines and the new line still
holds after an append. -/
theorem dictAppend_inv {Q : Line → Prop} {x : Line} (hx : Q x) (k : String) :
    ∀ d : Sections, (∀ p ∈ d, ∀ y ∈ p.2, Q y) → ∀ p ∈ dictAppend d k x, ∀ y ∈ p.2, Q y := by
  intro d
  induction d with
  | nil =>
    intro _ p hp y hy
    simp only [dictAppend, List.mem_singleton] at hp
    subst hp
    simp only [List.mem_singleton] at hy
    subst hy
    exact hx
  | cons e rest ih =>
    intro hall p hp y hy
    obtain ⟨k', v'⟩ := e
    by_cases he : k' = k
    · rw [dictAppend_cons, if_pos he] at hp
      rcases List.mem_cons.mp hp with hp | hp
      · subst hp
        rcases List.mem_append.mp hy with hy | hy
        · exact hall _ (List.mem_cons_self _ _) y hy
        · simp only [List.mem_singleton] at hy
          subst hy
          exact hx
      · exact hall p (List.mem_cons_of_mem _ hp) y hy
    · rw [dictAppend_cons, if_neg he] at hp
      rcases List.mem_cons.mp hp with hp | hp
      · subst hp
        exact hall _ (List.mem_cons_self _ _) y hy
      · exact ih (fun q hq => hall q (List.mem_cons_of_mem _ hq)) p hp y hy

/-- The last key of a two-or-more-entry mapping ignores the head. -/
theorem lastKey_cons_cons (p q : String × List Line) (qs : Sections) :
    lastKey (p :: q :: qs) = lastKey (q :: qs) := by
  simp [lastKey, List.getLast?_cons_cons]

/-- The last key is a key. -/
theorem lastKey_mem : ∀ (d : Sections) {c : String}, lastKey d = some c → c ∈ keysOf d
  | [], _, h => by simp [lastKey] at h
  | [p], c, h => by
    simp only [lastKey, List.getLast?_singleton, Option.map_some'] at h
    simp [keysOf, ← Option.some.inj h]
  | p :: q :: qs, c, h => by
    rw [lastKey_cons_cons] at h
    have := lastKey_mem (q :: qs) h
    simp only [keysOf, List.map_cons, List.mem_cons] at this ⊢
    exact Or.inr this

/-- All section lines of a cons cell. -/
theorem sectionLines_cons (p : String × List Line) (d : Sections) :
    sectionLines (p :: d) = p.2 ++ sectionLines d := by
  simp [sectionLines]

/-- All section lines of an append. -/
theorem sectionLines_append (d e : Sections) :
    sectionLines (d ++ e) = sectionLines d ++ sectionLines e := by
  simp [sectionLines]

/-- Appending a line under the last key of a duplicate-free mapping appends
the line to the concatenated section lines and changes neither the keys nor
the last key. -/
theorem dictAppend_last : ∀ (d : Sections) (cur : String) (x : Line),
    (keysOf d).Nodup → lastKey d = some cur →
    sectionLines (dictAppend d cur x) = sectionLines d ++ [x]
    ∧ keysOf (dictAppend d cur x) = keysOf d
    ∧ lastKey (dictAppend d cur x) = some cur
  | [], cur, x, _, h => by simp [lastKey] at h
  | [(k, v)], cur, x, _, h => by
    have hk : k = cur := by
      simpa only [lastKey, List.getLast?_singleton, Option.map_some',
        Option.some.injEq] using h
    subst hk
    rw [dictAppend_cons, if_pos rfl]
    refine ⟨?_, ?_, ?_⟩
    · simp [sectionLines]
    · simp [keysOf]
    · simp [lastKey]
  | (k, v) :: q :: qs, cur, x, hnd, h => by
    have hlast : lastKey (q :: qs) = some cur := by
      rw [← lastKey_cons_cons (k, v) q qs]
      exact h
    have hnd' : (keysOf (q :: qs)).Nodup ∧ k ∉ keysOf (q :: qs) := by
      have := hnd
      simp only [keysOf, List.map_cons, List.nodup_cons] at this
      exact ⟨by simp [keysOf, List.nodup_cons, this.2.1, this.2.2], by
        simp only [keysOf, List.map_cons, List.mem_cons]
        intro hcon
        rcases hcon with hcon | hcon
        · exact this.1 (by simp [hcon])
        · exact this.1 (by simp only [List.mem_cons]; exact Or.inr hcon)⟩
    have hcur_mem : cur ∈ keysOf (q :: qs) := lastKey_mem (q :: qs) hlast
    have hne : ¬ k = cur := fun he => hnd'.2 (he ▸ hcur_mem)
    have ih := dictAppend_last (q :: qs) cur x hnd'.1 hlast
    rw [dictAppend_cons, if_neg hne]
    refine ⟨?_, ?_, ?_⟩
    · rw [sectionLines_cons, sectionLines_cons, ih.1, List.append_assoc]
    · simp only [keysOf, List.map_cons]
      rw [show List.map (fun p => p.1) (dictAppend (q :: qs) cur x) = keysOf (dictAppend (q :: qs) cur x) from rfl,
        ih.2.1]
      rfl
    · cases hd : dictAppend (q :: qs) cur x with
      | nil =>
        exfalso
        have := ih.2.1
        rw [hd] at this
        simp [keysOf] at this
      | cons r rs =>
        rw [lastKey_cons_cons, ← hd]
        exact ih.2.2

/-! ### The segmenter's line loop -/

/-- A matched label names one of the five configured patterns. -/
theorem findSection_mem_labels {l : Line} {a : String} (h : findSection l = some a) :
    a ∈ ["contact", "education", "experience", "skills", "summary"] := by
  unfold findSection at h
  cases hfind : sectionPatterns.find?
      (fun p => p.2.any (fun kw => occursIn kw (l.map Char.toLower))) with
  | none => rw [hfind] at h; simp at h
  | some p =>
    rw [hfind] at h
    simp only [Option.map_some', Option.some.injEq] at h
    have hp := List.mem_of_find?_eq_some hfind
    subst h
    fin_cases hp <;> simp

/-- No matched label is the catch-all section. -/
theorem findSection_ne_general {l : Line} {a : String} (h : findSection l = some a) :
    ¬ a = "general" := by
  have hmem := findSection_mem_labels h
  intro he
  subst he
  revert hmem
  decide

/-- A blank line never matches a pattern. -/
theorem findSection_nil : findSection ([] : Line) = none := by decide

/-- The fold of the line loop: starting from a duplicate-free mapping whose
last key is the current section, if the labels still to be matched are
duplicate-free and fresh, the fold appends exactly the stripped non-blank
non-header lines to the concatenated section lines. -/
theorem foldSeg_reconstruct : ∀ (lines : List Line) (cur : String) (s : Sections),
    (keysOf s).Nodup → lastKey s = some cur →
    (headerLabels lines).Nodup →
    (∀ a ∈ headerLabels lines, a ∉ keysOf s) →
    sectionLines ((List.foldl segStep (cur, s) lines).2)
      = sectionLines s ++ nonHeaderOf lines
  | [], cur, s, _, _, _, _ => by simp [nonHeaderOf]
  | line :: rest, cur, s, hnd, hlast, hhnd, hdisj => by
    rw [List.foldl_cons]
    by_cases hb : pstrip line = []
    · have hstep : segStep (cur, s) line = (cur, s) := by simp [segStep, hb]
      have h1 : headerLabels (line :: rest) = headerLabels rest := by
        simp [headerLabels, List.filterMap_cons, hb]
      have h2 : nonHeaderOf (line :: rest) = nonHeaderOf rest := by
        simp [nonHeaderOf, List.filterMap_cons, hb]
      rw [hstep, h2]
      exact foldSeg_reconstruct rest cur s hnd hlast
        (by rw [← h1]; exact hhnd)
        (fun a ha => hdisj a (by rw [h1]; exact ha))
    · cases hf : findSection (pstrip line) with
      | some name =>
        have hstep : segStep (cur, s) line = (name, dictSet s name []) := by
          simp [segStep, hb, hf]
        have h1 : headerLabels (line :: rest) = name :: headerLabels rest := by
          simp [headerLabels, List.filterMap_cons, hb, hf]
        have h2 : nonHeaderOf (line :: rest) = nonHeaderOf rest := by
          simp [nonHeaderOf, List.filterMap_cons, hb, hf]
        have hhnd1 : (name :: headerLabels rest).Nodup := by rw [← h1]; exact hhnd
        have hname_not : name ∉ keysOf s :=
          hdisj name (by rw [h1]; exact List.mem_cons_self _ _)
        have hset : dictSet s name [] = s ++ [(name, [])] :=
          dictSet_notMem name [] s hname_not
        have hkeys : keysOf (s ++ [(name, [])]) = keysOf s ++ [name] := by
          simp [keysOf]
        have hnd2 : (keysOf (s ++ [(name, [])])).Nodup := by
          rw [hkeys]
          refine List.Nodup.append hnd (List.nodup_singleton name) ?_
          intro a ha hb2
          simp only [List.mem_singleton] at hb2
          subst hb2
          exact hname_not ha
        have hlast2 : lastKey (s ++ [(name, [])]) = some name := by
          simp [lastKey, List.getLast?_concat]
        have hnodup_parts := List.nodup_cons.mp hhnd1
        have hdisj2 : ∀ a ∈ headerLabels rest, a ∉ keysOf (s ++ [(name, [])]) := by
          intro a ha
          rw [hkeys]
          intro hmem
          rcases List.mem_append.mp hmem with hm | hm
          · exact hdisj a (by rw [h1]; exact List.mem_cons_of_mem _ ha) hm
          · simp only [List.mem_singleton] at hm
            subst hm
            exact hnodup_parts.1 ha
        have ih := foldSeg_reconstruct rest name (s ++ [(name, [])])
          hnd2 hlast2 hnodup_parts.2 hdisj2
        rw [hstep, h2, hset, ih, sectionLines_append]
        simp [sectionLines]
      | none =>
        have hstep : segStep (cur, s) line = (cur, dictAppend s cur (pstrip line)) := by
          simp [segStep, hb, hf]
        have h1 : headerLabels (line :: rest) = headerLabels rest := by
          simp [headerLabels, List.filterMap_cons, hb, hf]
        have h2 : nonHeaderOf (line :: rest) = pstrip line :: nonHeaderOf rest := by
          simp [nonHeaderOf, List.filterMap_cons, hb, hf]
        have hda := dictAppend_last s cur (pstrip line) hnd hlast
        have ih := foldSeg_reconstruct rest cur (dictAppend s cur (pstrip line))
          (by rw [hda.2.1]; exact hnd) hda.2.2
          (by rw [← h1]; exact hhnd)
          (fun a ha => by rw [hda.2.1]; exact hdisj a (by rw [h1]; exact ha))
        rw [hstep, h2, ih, hda.1]
        simp

/-! ### Claim C2: which lines the segmenter keeps -/

/-- C2 counterexample: the segmenter does not reconstruct all non-blank
lines. Header lines are consumed (never stored), and a re-matched label
discards its earlier lines: on "skills\nalpha\nskills\nbeta" the stored
lines are just ["beta"], not the four non-blank input lines. -/
theorem segment_loses_lines :
    sectionLines (extract_resume_sections (("skills\nalpha\nskills\nbeta").data))
      ≠ nonBlankOf (splitNl (("skills\nalpha\nskills\nbeta").data)) := by decide

/-- C2 (amended): lines matching a section-header pattern are consumed as
headers and stored nowhere; provided no section label is matched more than
once, concatenating all section line lists in segmentation order
reconstructs exactly the stripped non-blank non-header lines of the input,
in original order. -/
theorem segment_reconstructs_nonheader (t : List Char)
    (h : (headerLabels (splitNl t)).Nodup) :
    sectionLines (extract_resume_sections t) = nonHeaderOf (splitNl t) := by
  unfold extract_resume_sections
  have hdisj : ∀ a ∈ headerLabels (splitNl t), a ∉ keysOf [("general", [])] := by
    intro a ha
    rcases List.mem_filterMap.mp ha with ⟨line, _, hline⟩
    by_cases hb : pstrip line = []
    · simp [hb] at hline
    · rw [if_neg hb] at hline
      have := findSection_ne_general hline
      simp [keysOf, this]
  have := foldSeg_reconstruct (splitNl t) "general" [("general", [])]
    (by simp [keysOf]) (by simp [lastKey]) h hdisj
  rw [this]
  simp [sectionLines]

/-- C2 witness: the amended reconstruction applied to the concrete input
"intro\nskills\npython", whose single matched label is fresh. -/
theorem segment_reconstructs_witness :
    (headerLabels (splitNl (("intro\nskills\npython").data))).Nodup
    ∧ sectionLines (extract_resume_sections (("intro\nskills\npython").data))
        = nonHeaderOf (splitNl (("intro\nskills\npython").data)) :=
  ⟨by decide, segment_reconstructs_nonheader (("intro\nskills\npython").data) (by decide)⟩

/-! ### Claim C6: a header resets its section to a fresh empty list -/

/-- C6: whenever a header line matching label L arrives, whatever lines
were accumulated before (under L or elsewhere), the sections mapping binds
L to a fresh empty list and the current-section cursor moves to L:
last-wins semantics, not append or merge. -/
theorem header_resets_section (t hline : List Char) (L : String)
    (hn : '\n' ∉ hline) (hf : findSection (pstrip hline) = some L) :
    (List.foldl segStep ("general", [("general", [])]) (splitNl (t ++ '\n' :: hline))).1 = L
    ∧ dictGet (extract_resume_sections (t ++ '\n' :: hline)) L = some [] := by
  have hb : ¬ pstrip hline = [] := by
    intro he
    rw [he, findSection_nil] at hf
    exact Option.noConfusion hf
  have hsplit : splitNl (t ++ '\n' :: hline) = splitNl t ++ [hline] := by
    rw [splitNl_append, splitNl_no_nl hline hn]
  have hstep : ∀ st : String × Sections, segStep st hline = (L, dictSet st.2 L []) := by
    intro st
    simp [segStep, hb, hf]
  unfold extract_resume_sections
  rw [hsplit, List.foldl_append, List.foldl_cons, List.foldl_nil, hstep]
  exact ⟨rfl, dictGet_dictSet L [] _⟩

/-- C6 witness: after "experience\nled team" the header line "skills"
rebinds the skills section to the empty list. -/
theorem header_resets_section_witness :
    ('\n' ∉ ("skills").data)
    ∧ findSection (pstrip (("skills").data)) = some "skills"
    ∧ dictGet
        (extract_resume_sections ((("experience\nled team").data) ++ '\n' :: ("skills").data))
        "skills" = some [] :=
  ⟨by decide, by decide,
    (header_resets_section (("experience\nled team").data) (("skills").data) "skills"
      (by decide) (by decide)).2⟩

/-! ### Claim C8: mixed-case, extra-space header recognition -/

/-- C8: the line "Work   EXPERIENCE:" is recognized as an experience
header: the matcher finds the keyword in the lowercased line, the cursor
switches to experience, and a following content line lands there. -/
theorem work_experience_header_recognized :
    findSection (pstrip (("Work   EXPERIENCE:").data)) = some "experience"
    ∧ (List.foldl segStep ("general", [("general", [])])
        (splitNl (("Work   EXPERIENCE:").data))).1 = "experience"
    ∧ extract_resume_sections (("Work   EXPERIENCE:\nbuilt things").data)
        = [("general", []), ("experience", [("built things").data])] :=
  ⟨by decide, by decide, by decide⟩

/-! ### Claim C10: shape invariants of the segmenter's output -/

/-- The fold of the line loop preserves the presence of the general key and
the well-formedness of all stored lines. -/
theorem foldSeg_inv : ∀ (lines : List Line) (st : String × Sections),
    ("general" ∈ keysOf st.2 ∧ ∀ p ∈ st.2, ∀ x ∈ p.2, pstrip x = x ∧ x ≠ []) →
    ("general" ∈ keysOf (List.foldl segStep st lines).2
      ∧ ∀ p ∈ (List.foldl segStep st lines).2, ∀ x ∈ p.2, pstrip x = x ∧ x ≠ [])
  | [], _, h => h
  | line :: rest, st, h => by
    rw [List.foldl_cons]
    apply foldSeg_inv rest
    by_cases hb : pstrip line = []
    · have hstep : segStep st line = st := by simp [segStep, hb]
      rw [hstep]
      exact h
    · cases hf : findSection (pstrip line) with
      | some name =>
        have hstep : segStep st line = (name, dictSet st.2 name []) := by
          simp [segStep, hb, hf]
        rw [hstep]
        exact ⟨mem_keys_dictSet name [] st.2 h.1, dictSet_inv name st.2 h.2⟩
      | none =>
        have hstep : segStep st line = (st.1, dictAppend st.2 st.1 (pstrip line)) := by
          simp [segStep, hb, hf]
        rw [hstep]
        exact ⟨mem_keys_dictAppend st.1 (pstrip line) st.2 h.1,
          dictAppend_inv ⟨pstrip_idem line, hb⟩ st.1 st.2 h.2⟩

/-- C10: for every string input, the segmenter's mapping holds the key
'general', and every stored line is stripped and non-empty. -/
theorem sections_wellformed (t : List Char) :
    "general" ∈ keysOf (extract_resume_sections t)
    ∧ ∀ p ∈ extract_resume_sections t, ∀ x ∈ p.2, pstrip x = x ∧ x ≠ [] := by
  unfold extract_resume_sections
  refine foldSeg_inv (splitNl t) ("general", [("general", [])]) ⟨by simp [keysOf], ?_⟩
  intro p hp x hx
  simp only [List.mem_singleton] at hp
  subst hp
  simp at hx

/-- C10 witness: the invariants at the concrete input "skills\npython" and
the stored line "python". -/
theorem sections_wellformed_witness :
    "general" ∈ keysOf (extract_resume_sections (("skills\npython").data))
    ∧ (pstrip (("python").data) = ("python").data ∧ ("python").data ≠ []) :=
  ⟨(sections_wellformed (("skills\npython").data)).1,
   (sections_wellformed (("skills\npython").data)).2 ("skills", [("python").data])
     (by decide) (("python").data) (by decide)⟩

/-! ### Claim C3: the orchestrator never raises and synthesizes error text -/

/-- C3 counterexample: the orchestrator does not always return a string.
When the preferred strategy raises and the fallback succeeds, the fallback
text is passed through extract_resume_sections, so the returned value is
the sections dictionary, not a string. -/
theorem extract_returns_dict_on_fallback :
    isStrResult
      (extract ⟨Except.ok (("ab").data), Except.ok [], Except.error (("e").data),
        Except.ok []⟩).1 = false := by decide

/-- C3 (amended): the orchestrator never lets an exception escape — it
always returns a value (a string on the primary-success and total-failure
paths, a sections dictionary on the fallback path) — and when every
attempted strategy fails it returns the diagnostic error string embedding
the fallback failure's message. -/
theorem extract_total_and_error_string (env : MethodRuns) :
    (∃ v, (extract env).1 = Except.ok v)
    ∧ (∀ e3 e1, env.m3 = Except.error e3 → env.m1 = Except.error e1 →
        (extract env).1 = Except.ok (PyVal.str (("Error extracting PDF: ").data ++ e1))) := by
  constructor
  · cases h3 : env.m3 with
    | ok best => exact ⟨PyVal.str best, by simp [extract, pyTry, h3]⟩
    | error e =>
      cases h1 : env.m1 with
      | ok fb =>
        exact ⟨PyVal.dict (extract_resume_sections (clean_extracted_text fb)),
          by simp [extract, pyTry, h3, h1]⟩
      | error e1 =>
        exact ⟨PyVal.str (("Error extracting PDF: ").data ++ e1),
          by simp [extract, pyTry, h3, h1]⟩
  · intro e3 e1 h3 h1
    simp [extract, pyTry, h3, h1]

/-- C3 witness: with both strategies raising, the orchestrator returns the
synthesized error string embedding the fallback's message. -/
theorem extract_total_witness :
    (∃ v, (extract ⟨Except.error (("m1 broke").data), Except.ok [],
        Except.error (("m3 broke").data), Except.ok []⟩).1 = Except.ok v)
    ∧ (extract ⟨Except.error (("m1 broke").data), Except.ok [],
        Except.error (("m3 broke").data), Except.ok []⟩).1
        = Except.ok (PyVal.str (("Error extracting PDF: ").data ++ ("m1 broke").data)) :=
  ⟨(extract_total_and_error_string _).1,
   (extract_total_and_error_string _).2 (("m3 broke").data) (("m1 broke").data) rfl rfl⟩

/-! ### Claim C4: strategy preference and fallback post-processing -/

/-- C4: the orchestrator's value comes from the layout-preserving strategy
first — returned directly and unmodified on success — and, when that
strategy raises, from the layout-ordered block strategy with the normalizer
and the segmenter applied to its output. -/
theorem extract_prefers_pdfplumber (env : MethodRuns) :
    (∀ txt, env.m3 = Except.ok txt → (extract env).1 = Except.ok (PyVal.str txt))
    ∧ (∀ e txt, env.m3 = Except.error e → env.m1 = Except.ok txt →
        (extract env).1
          = Except.ok (PyVal.dict (extract_resume_sections (clean_extracted_text txt)))) := by
  constructor
  · intro txt h3
    simp [extract, pyTry, h3]
  · intro e txt h3 h1
    simp [extract, pyTry, h3, h1]

/-- C4 witness: both branches at concrete strategy outcomes. -/
theorem extract_prefers_pdfplumber_witness :
    (extract ⟨Except.ok (("fb").data), Except.ok [], Except.ok (("best").data),
        Except.ok []⟩).1 = Except.ok (PyVal.str (("best").data))
    ∧ (extract ⟨Except.ok (("cvAB").data), Except.ok [], Except.error (("boom").data),
        Except.ok []⟩).1
        = Except.ok (PyVal.dict (extract_resume_sections (clean_extracted_text (("cvAB").data)))) :=
  ⟨(extract_prefers_pdfplumber _).1 (("best").data) rfl,
   (extract_prefers_pdfplumber _).2 (("boom").data) (("cvAB").data) rfl rfl⟩

/-! ### Claim C7: the table strategy fails by returning text -/

/-- C7 counterexample: when the detector finds no tables and does not
raise, the strategy returns the empty string, which is not the formatted
failure string the claim promises (it does not start with the failure
format "Error extracting tables: "). -/
theorem method5_empty_tables_not_failure_string :
    leadMatch (("Error extracting tables: ").data)
      (method5_camelot_tables (Except.ok [])) = false := by decide

/-- C7 (amended): the table strategy never raises: when the detector
raises with message e it returns the formatted failure string
"Error extracting tables: " followed by e, and when the detector yields no
tables without raising it returns the empty string. -/
theorem method5_handles_detector (r : Except (List Char) (List (List Char))) :
    (∀ e, r = Except.error e →
      method5_camelot_tables r = ("Error extracting tables: ").data ++ e)
    ∧ (r = Except.ok [] → method5_camelot_tables r = []) := by
  constructor
  · intro e he
    subst he
    rfl
  · intro he
    subst he
    rfl

/-- C7 witness: the two detector outcomes at concrete inputs. -/
theorem method5_handles_detector_witness :
    method5_camelot_tables (Except.error (("no tables found").data))
      = ("Error extracting tables: ").data ++ ("no tables found").data
    ∧ method5_camelot_tables (Except.ok []) = [] :=
  ⟨(method5_handles_detector _).1 (("no tables found").data) rfl,
   (method5_handles_detector _).2 rfl⟩

/-! ### Claim C9: the diagnostic pass does not affect the returned value -/

/-- C9: the orchestrator computes the hybrid diagnostic report, but its
returned value is exactly that of the spec-side variant that skips the
diagnostic pass entirely. -/
theorem extract_diag_frame (env : MethodRuns) :
    (extract env).2 = method7_hybrid_approach env
    ∧ (extract env).1 = extractNoDiag env :=
  ⟨rfl, rfl⟩
